import Mathlib

/-!
Shallow embedding of the Denver happy-hour pipeline (scraper, crawler,
extractor) and of the frontend filter of this repository, together with
proofs of the behavioural claims about them.

Strings from the source are processed as `List Char`; JavaScript string
primitives (`toLowerCase`, `toUpperCase`, `trim`, `includes`) are modelled
on ASCII, which covers every character the embedded code paths inspect.
JavaScript regular expressions are embedded via a small backtracking
matcher (`RE` / `mtch`) with leftmost-first alternation, greedy and lazy
quantifiers, capture groups and word boundaries, mirroring ECMAScript
semantics; the matcher is fuelled so that every definition is executable
by kernel reduction.
-/

namespace HappyHour

/-- ASCII lower-casing, the fragment of JS `toLowerCase` the code relies on. -/
def asciiLower (c : Char) : Char :=
  if 'A' ≤ c ∧ c ≤ 'Z' then Char.ofNat (c.toNat + 32) else c

/-- ASCII upper-casing, the fragment of JS `toUpperCase` the code relies on. -/
def asciiUpper (c : Char) : Char :=
  if 'a' ≤ c ∧ c ≤ 'z' then Char.ofNat (c.toNat - 32) else c

def lowerL (l : List Char) : List Char := l.map asciiLower

def upperL (l : List Char) : List Char := l.map asciiUpper

/-- Whitespace set used for JS `\s` and `trim` (ASCII fragment). -/
def isSpaceC (c : Char) : Bool :=
  c == ' ' || c == '\t' || c == '\n' || c == '\r' || c == '\x0b' || c == '\x0c'

def isDigitC (c : Char) : Bool := '0' ≤ c && c ≤ '9'

/-- JS `\w` (word character) class. -/
def isWordChar (c : Char) : Bool :=
  ('A' ≤ c && c ≤ 'Z') || ('a' ≤ c && c ≤ 'z') || isDigitC c || c == '_'

/-- JS `String.prototype.trim` (ASCII whitespace fragment). -/
def trimL (l : List Char) : List Char :=
  ((l.dropWhile isSpaceC).reverse.dropWhile isSpaceC).reverse

/-- `needle` occurs at the front of `hay`. -/
def isPrefL : List Char → List Char → Bool
  | [], _ => true
  | _ :: _, [] => false
  | n :: ns, h :: hs => n == h && isPrefL ns hs

/-- JS `String.prototype.includes`: `needle` occurs somewhere inside `hay`. -/
def containsSub : List Char → List Char → Bool
  | [], needle => needle.isEmpty
  | h :: hs, needle => isPrefL needle (h :: hs) || containsSub hs needle

/-- `hay.includes needle` with a `String` needle. -/
def containsS (hay : List Char) (needle : String) : Bool :=
  containsSub hay needle.toList

/-- `hay` ends with `suf`. -/
def endsWithL (hay suf : List Char) : Bool :=
  isPrefL suf.reverse hay.reverse

/-- An insertion-ordered set add, mirroring JS `Set.prototype.add` followed by
spreading the set back into an array (insertion order preserved). -/
def addUnique (x : String) (l : List String) : List String :=
  if l.contains x then l else l ++ [x]

/-!
## `slugify` (scraper helper, `scraper.js` lines 35-40)

```js
function slugify(name) {
  return name
    .toLowerCase()
    .replace(/[^a-z0-9]+/g, '-')
    .replace(/(^-|-$)/g, '');
}
```
-/

/-- Characters kept by `slugify`: the class `[a-z0-9]`. -/
def keepC (c : Char) : Bool := ('a' ≤ c && c ≤ 'z') || ('0' ≤ c && c ≤ '9')

/-- `replace(/[^a-z0-9]+/g, '-')`: each maximal run of non-kept characters
becomes a single hyphen.  The flag records whether we are inside such a run
(whose hyphen has already been emitted). -/
def collapseGo : Bool → List Char → List Char
  | _, [] => []
  | inRun, c :: rest =>
    if keepC c then c :: collapseGo false rest
    else if inRun then collapseGo true rest
    else '-' :: collapseGo true rest

/-- The `^-` alternative of `replace(/(^-|-$)/g, '')`: drop one leading
hyphen. -/
def stripFront (l : List Char) : List Char :=
  match l with
  | c :: rest => if c = '-' then rest else c :: rest
  | [] => []

/-- `replace(/(^-|-$)/g, '')`: remove one leading and one trailing hyphen. -/
def stripEdges (l : List Char) : List Char :=
  let l1 := stripFront l
  if l1.getLast? == some '-' then l1.dropLast else l1

def slugify (name : String) : String :=
  ⟨stripEdges (collapseGo false (lowerL name.toList))⟩

/-!
## Regular-expression engine

A small abstract syntax for the ECMAScript regex fragment the extractor and
crawler use, with a fuelled CPS backtracking matcher.  Alternation tries the
left branch first, quantifiers carry a laziness flag, capture groups record
the consumed span, and `wordB` is the `\b` assertion (it inspects the
character just before the current position, threaded through as `prev`).
-/

inductive RE where
  | eps : RE
  | cls (p : Char → Bool) : RE
  | seq (a b : RE) : RE
  | alt (a b : RE) : RE
  | star (lzy : Bool) (a : RE) : RE
  | opt (lzy : Bool) (a : RE) : RE
  | group (n : Nat) (a : RE) : RE
  | wordB : RE

/-- Recorded captures: group index paired with the captured characters.
Later captures are consed on; `capGet` returns the most recent one. -/
abbrev Caps := List (Nat × List Char)

def capGet (caps : Caps) (n : Nat) : List Char :=
  match caps.find? (fun p => p.1 == n) with
  | some p => p.2
  | none => []

/-- Backtracking matcher in continuation-passing style.  `prev` is the
character immediately before the current position (for `\b`), `s` the
remaining input and `caps` the captures recorded so far on this path.
The continuation returns `none` to force backtracking.  `star` only loops
when its body consumed at least one character (ECMAScript forbids further
iterations after an empty quantifier iteration). -/
def mtch (fuel : Nat) (r : RE) (prev : Option Char) (s : List Char) (caps : Caps)
    (k : Option Char → List Char → Caps → Option (List Char × Caps)) :
    Option (List Char × Caps) :=
  match fuel with
  | 0 => none
  | fuel + 1 =>
    match r with
    | .eps => k prev s caps
    | .cls p =>
      match s with
      | [] => none
      | c :: rest => if p c then k (some c) rest caps else none
    | .seq a b => mtch fuel a prev s caps (fun p2 s2 c2 => mtch fuel b p2 s2 c2 k)
    | .alt a b =>
      match mtch fuel a prev s caps k with
      | some res => some res
      | none => mtch fuel b prev s caps k
    | .opt lzy a =>
      if lzy then
        match k prev s caps with
        | some res => some res
        | none => mtch fuel a prev s caps k
      else
        match mtch fuel a prev s caps k with
        | some res => some res
        | none => k prev s caps
    | .star lzy a =>
      if lzy then
        match k prev s caps with
        | some res => some res
        | none =>
          mtch fuel a prev s caps (fun p2 s2 c2 =>
            if s2.length < s.length then mtch fuel (.star lzy a) p2 s2 c2 k else none)
      else
        match mtch fuel a prev s caps (fun p2 s2 c2 =>
            if s2.length < s.length then mtch fuel (.star lzy a) p2 s2 c2 k else none) with
        | some res => some res
        | none => k prev s caps
    | .group n a =>
      mtch fuel a prev s caps (fun p2 s2 c2 =>
        k p2 s2 ((n, s.take (s.length - s2.length)) :: c2))
    | .wordB =>
      let pw := match prev with | none => false | some c => isWordChar c
      let nw := match s with | [] => false | c :: _ => isWordChar c
      if pw != nw then k prev s caps else none

/-- Try to match `r` at the current position; on success return the matched
span, the captures and the remaining input. -/
def matchAt (F : Nat) (r : RE) (prev : Option Char) (s : List Char) :
    Option (List Char × Caps × List Char) :=
  match mtch F r prev s [] (fun _ s2 c2 => some (s2, c2)) with
  | none => none
  | some (rest, caps) => some (s.take (s.length - rest.length), caps, rest)

/-- Match `r` anywhere at or after the current position (the leftmost match
wins, as in ECMAScript).  Returns the text skipped before the match, the
matched span, the captures, and the remaining input. -/
def searchGoL (F : Nat) (r : RE) :
    List Char → Option Char → Option (List Char × List Char × Caps × List Char)
  | s, prev =>
    match matchAt F r prev s with
    | some (m, caps, rest) => some ([], m, caps, rest)
    | none =>
      match s with
      | [] => none
      | c :: s' =>
        match searchGoL F r s' (some c) with
        | some (pre, m, caps, rest) => some (c :: pre, m, caps, rest)
        | none => none

def searchGo (F : Nat) (r : RE) (prev : Option Char) (s : List Char) :
    Option (List Char × List Char × Caps × List Char) :=
  searchGoL F r s prev

/-- First match of `r` in `s` (JS `String.prototype.match` without `g`),
returning the matched span and its captures. -/
def searchRE (F : Nat) (r : RE) (s : List Char) : Option (List Char × Caps) :=
  match searchGo F r none s with
  | some (_, m, caps, _) => some (m, caps)
  | none => none

def lastCharOf (l : List Char) (dflt : Option Char) : Option Char :=
  match l.getLast? with
  | some c => some c
  | none => dflt

/-- Repeated `exec` with the `g` flag: collect successive non-overlapping
matches, resuming after each match (advancing one character after an empty
match, as JS does with `lastIndex`). -/
def execAllGo (F : Nat) (r : RE) : Nat → Option Char → List Char → List (List Char × Caps)
  | 0, _, _ => []
  | n + 1, prev, s =>
    match searchGo F r prev s with
    | none => []
    | some (pre, m, caps, rest) =>
      let prev2 := lastCharOf (pre ++ m) prev
      if m.isEmpty then
        match rest with
        | [] => [(m, caps)]
        | c :: rest' => (m, caps) :: execAllGo F r n (some c) rest'
      else (m, caps) :: execAllGo F r n prev2 rest

def execAll (F : Nat) (r : RE) (s : List Char) : List (List Char × Caps) :=
  execAllGo F r (s.length + 1) none s

/-- Does `r` match the whole of `s` (a `^...$`-anchored regex test)? -/
def matchFull (F : Nat) (r : RE) (s : List Char) : Bool :=
  (mtch F r none s [] (fun _ s2 c2 => if s2.isEmpty then some (s2, c2) else none)).isSome

/-- JS non-global `String.prototype.replace`: rewrite the first match of `r`
using `f`, which sees the captures and the matched span. -/
def replaceFirst (F : Nat) (r : RE) (f : Caps → List Char → List Char)
    (s : List Char) : List Char :=
  match searchGo F r none s with
  | some (pre, m, caps, rest) => pre ++ f caps m ++ rest
  | none => s

/-- A literal character, matched case-insensitively (all embedded regexes
carry the `i` flag). -/
def litc (c : Char) : RE := .cls (fun d => asciiLower d == asciiLower c)

def seqAll : List RE → RE
  | [] => .eps
  | [r] => r
  | r :: rs => .seq r (seqAll rs)

def alts : List RE → RE
  | [] => .cls (fun _ => false)
  | [r] => r
  | r :: rs => .alt r (alts rs)

def litstr (s : String) : RE := seqAll (s.toList.map litc)

/-- `x+` as `x` then `x*`. -/
def plusRE (r : RE) : RE := .seq r (.star false r)

/-!
## The extractor's regular expressions (`extractor.js`)

Each definition below transcribes one regex literal of the source, part by
part, in source order.
-/

def DAYS_OF_WEEK : List String :=
  ["Monday", "Tuesday", "Wednesday", "Thursday", "Friday", "Saturday", "Sunday"]

def digitRE : RE := .cls isDigitC

/-- `\d{1,2}` -/
def d12 : RE := .seq digitRE (.opt false digitRE)

/-- `(?::\d{2})?` -/
def colonMM : RE := .opt false (seqAll [litc ':', digitRE, digitRE])

/-- `\s*` -/
def spacesRE : RE := .star false (.cls isSpaceC)

/-- `\s+` -/
def spaces1RE : RE := plusRE (.cls isSpaceC)

/-- `(?:am|pm|AM|PM)?` under the `i` flag. -/
def ampmPlain : RE := .alt (litstr "am") (litstr "pm")

/-- `(?:am|pm|a\.m\.|p\.m\.)` under the `i` flag. -/
def ampmDotted : RE :=
  alts [litstr "am", litstr "pm", litstr "a.m.", litstr "p.m."]

/-- `\d{1,2}(?::\d{2})?\s*(?:am|pm|AM|PM)?` — the time atom of
`TIME_PATTERNS`. -/
def timePlain : RE := seqAll [d12, colonMM, spacesRE, .opt false ampmPlain]

/-- `\d{1,2}(?::\d{2})?\s*(?:am|pm|a\.m\.|p\.m\.)?` — the time atom of the
happy-hour-context regex in `extractTimes`. -/
def timeCtx : RE := seqAll [d12, colonMM, spacesRE, .opt false ampmDotted]

/-- `[-–to]+` (a character class, so `t` and `o` individually). -/
def sepRE : RE :=
  plusRE (.cls (fun c => c == '-' || c == '–' || asciiLower c == 't' || asciiLower c == 'o'))

/-- `TIME_PATTERNS[0]`:
`/(\d{1,2}(?::\d{2})?\s*(?:am|pm|AM|PM)?)\s*[-–to]+\s*(\d{1,2}(?::\d{2})?\s*(?:am|pm|AM|PM)?)/gi` -/
def timePat0 : RE :=
  seqAll [.group 1 timePlain, spacesRE, sepRE, spacesRE, .group 2 timePlain]

/-- `TIME_PATTERNS[1]`:
`/happy\s*hour[s]?\s*[:.]?\s*(TIME)\s*[-–to]+\s*(TIME)/gi` -/
def timePat1 : RE :=
  seqAll [litstr "happy", spacesRE, litstr "hour", .opt false (litc 's'), spacesRE,
    .opt false (.cls (fun c => c == ':' || c == '.')), spacesRE,
    .group 1 timePlain, spacesRE, sepRE, spacesRE, .group 2 timePlain]

/-- The regex matched first in `extractTimes`:
`/happy\s*hour[^.]*?(TIMECTX)\s*[-–to]+\s*(TIMECTX)/i` -/
def happyHourCtxRE : RE :=
  seqAll [litstr "happy", spacesRE, litstr "hour",
    .star true (.cls (fun c => c != '.')),
    .group 1 timeCtx, spacesRE, sepRE, spacesRE, .group 2 timeCtx]

/-- `(monday|tuesday|wednesday|thursday|friday|saturday|sunday)` -/
def dayFullRE : RE :=
  alts [litstr "monday", litstr "tuesday", litstr "wednesday", litstr "thursday",
    litstr "friday", litstr "saturday", litstr "sunday"]

/-- `[-–]?` -/
def optDashRE : RE := .opt false (.cls (fun c => c == '-' || c == '–'))

/-- The range pattern of `extractDays`:
`/(DAY)\s*[-–]?\s*(?:through|thru|to)?\s*[-–]?\s*(DAY)/gi` -/
def rangeRE : RE :=
  seqAll [.group 1 dayFullRE, spacesRE, optDashRE, spacesRE,
    .opt false (alts [litstr "through", litstr "thru", litstr "to"]),
    spacesRE, optDashRE, spacesRE, .group 2 dayFullRE]

/-- `(mon(?:day)?|tue(?:s(?:day)?)?|wed(?:nesday)?|thu(?:rs(?:day)?)?|fri(?:day)?|sat(?:urday)?|sun(?:day)?)` -/
def dayAbbrRE : RE :=
  alts [
    .seq (litstr "mon") (.opt false (litstr "day")),
    .seq (litstr "tue") (.opt false (.seq (litc 's') (.opt false (litstr "day")))),
    .seq (litstr "wed") (.opt false (litstr "nesday")),
    .seq (litstr "thu") (.opt false (.seq (litstr "rs") (.opt false (litstr "day")))),
    .seq (litstr "fri") (.opt false (litstr "day")),
    .seq (litstr "sat") (.opt false (litstr "urday")),
    .seq (litstr "sun") (.opt false (litstr "day"))]

/-- The individual-day-mention pattern of `extractDays`: `\b(DAYABBR)\b` -/
def dayMentionRE : RE := seqAll [.wordB, .group 1 dayAbbrRE, .wordB]

/-- `\$\d+(?:\.\d{2})?` -/
def dollarAmt : RE :=
  seqAll [litc '$', plusRE digitRE, .opt false (seqAll [litc '.', digitRE, digitRE])]

def FOOD_PATTERNS : List RE :=
  [ seqAll [dollarAmt, spaces1RE, .opt false (.seq (litstr "off") spaces1RE),
      alts [litstr "appetizer", litstr "app", litstr "wing", litstr "taco", litstr "nacho",
        litstr "slider", litstr "fries", litstr "pizza", litstr "burger", litstr "bite",
        litstr "snack", litstr "plate", litstr "food"]],
    seqAll [litstr "half", .opt false (.cls (fun c => isSpaceC c || c == '-')),
      alts [litstr "off", litstr "price"], spaces1RE,
      alts [litstr "appetizer", litstr "app", litstr "food", litstr "menu",
        litstr "bite", litstr "snack"]],
    seqAll [alts [litstr "appetizer", litstr "app", litstr "food", litstr "bite", litstr "snack"],
      .opt false (litc 's'), spaces1RE, .opt false (.seq (litstr "for") spaces1RE),
      litc '$', plusRE digitRE],
    seqAll [dollarAmt, spaces1RE,
      alts [litstr "taco", litstr "wing", litstr "slider", litstr "pizza", litstr "nacho",
        litstr "burger", litstr "bite"]],
    seqAll [alts [litstr "free", litstr "complimentary"], spaces1RE,
      alts [litstr "appetizer", litstr "food", litstr "snack", litstr "bite", litstr "pizza"]],
    seqAll [alts [litstr "food", litstr "kitchen"], spaces1RE, litstr "special"] ]

def DRINK_PATTERNS : List RE :=
  [ seqAll [dollarAmt, spaces1RE, .opt false (.seq (litstr "off") spaces1RE),
      alts [litstr "beer", litstr "draft", litstr "pint", litstr "well", litstr "cocktail",
        litstr "wine", litstr "margarita", litstr "marg", litstr "shot", litstr "drink",
        litstr "spirit", litstr "pour", litstr "rail", litstr "domestic", litstr "craft",
        litstr "import", litstr "ipa", litstr "lager", litstr "ale"]],
    seqAll [litstr "half", .opt false (.cls (fun c => isSpaceC c || c == '-')),
      alts [litstr "off", litstr "price"], spaces1RE,
      alts [litstr "beer", litstr "draft", litstr "pint", litstr "well", litstr "cocktail",
        litstr "wine", litstr "drink", litstr "bottle", litstr "glass"]],
    seqAll [alts [litstr "beer", litstr "draft", litstr "pint", litstr "well", litstr "cocktail",
        litstr "wine", litstr "margarita", litstr "drink", litstr "pour"],
      .opt false (litc 's'), spaces1RE, .opt false (.seq (litstr "for") spaces1RE),
      litc '$', plusRE digitRE],
    seqAll [dollarAmt, spaces1RE,
      alts [litstr "domestic", litstr "craft", litstr "import", litstr "house",
        litstr "select", litstr "featured"], spaces1RE,
      alts [litstr "beer", litstr "draft", litstr "pint", litstr "wine", litstr "cocktail"]],
    seqAll [alts [.seq (litstr "buy") (.seq spaces1RE (litstr "one")), litstr "bogo"], spaces1RE,
      .opt false (seqAll [litstr "get", spaces1RE, litstr "one", spaces1RE]),
      alts [litstr "free", litstr "half"]],
    seqAll [alts [litstr "drink", litstr "cocktail", litstr "beer", litstr "wine"],
      spaces1RE, litstr "special"] ]

/-!
## The extractor's functions (`extractor.js` lines 341-472)
-/

/-- `startsWith` on character lists (`pre` at the front of `hay`). -/
def startsWithL (hay pre : List Char) : Bool := isPrefL pre hay

/--
```js
function normalizeDay(dayStr) {
  const lower = dayStr.toLowerCase().trim();
  for (const day of DAYS_OF_WEEK) {
    if (day.toLowerCase().startsWith(lower.slice(0, 3))) return day;
  }
  return null;
}
```
-/
def normalizeDay (dayStr : List Char) : Option String :=
  let lower := trimL (lowerL dayStr)
  DAYS_OF_WEEK.find? (fun day => startsWithL (lowerL day.toList) (lower.take 3))

/-- `DAYS_OF_WEEK.indexOf d`, with 7 (the length) standing for JS `-1`. -/
def idxGo : List String → String → Nat
  | [], _ => 0
  | d :: ds, x => if d == x then 0 else idxGo ds x + 1

def idxOfDay (d : String) : Nat := idxGo DAYS_OF_WEEK d

/-- `DAYS_OF_WEEK[i]`. -/
def dayAt (i : Nat) : String := DAYS_OF_WEEK.getD i ""

/-- The range-expansion loop of `extractDays`:
`for (let i = startIdx; i !== (endIdx + 1) % 7; i = (i + 1) % 7) days.add(DAYS_OF_WEEK[i]);`
Seven units of fuel suffice, since the index walks modulo 7 and reaches
`stop` after at most six steps. -/
def rangeLoop : Nat → Nat → Nat → List String → List String
  | 0, _, _, ds => ds
  | fuel + 1, i, stop, ds =>
    if i = stop then ds else rangeLoop fuel ((i + 1) % 7) stop (addUnique (dayAt i) ds)

/-- The loop above followed by `days.add(DAYS_OF_WEEK[endIdx])`. -/
def applyRangeIdx (s e : Nat) (ds : List String) : List String :=
  addUnique (dayAt e) (rangeLoop 7 s ((e + 1) % 7) ds)

/-- The body of `extractDays`'s range-match handler: normalize both captured
day names, look up their indices and, when both are found (`indexOf >= 0`),
expand the range. -/
def applyRange (c1 c2 : List Char) (ds : List String) : List String :=
  match normalizeDay c1, normalizeDay c2 with
  | some d1, some d2 =>
    let s := idxOfDay d1
    let e := idxOfDay d2
    if s < 7 && e < 7 then applyRangeIdx s e ds else ds
  | _, _ => ds

/-- `extractDays` (lines 351-392).  Returns `none` for JS `null`. -/
def extractDays (F : Nat) (text : List Char) : Option (List String) :=
  let lower := lowerL text
  if containsS lower "daily" || containsS lower "every day" || containsS lower "7 days" then
    some DAYS_OF_WEEK
  else if containsS lower "weekday" then
    some ["Monday", "Tuesday", "Wednesday", "Thursday", "Friday"]
  else
    let ds0 := if containsS lower "weekend" then
        addUnique "Sunday" (addUnique "Saturday" []) else []
    let ds1 := (execAll F rangeRE text).foldl
      (fun ds m => applyRange (capGet m.2 1) (capGet m.2 2) ds) ds0
    let ds2 := (execAll F dayMentionRE text).foldl
      (fun ds m =>
        match normalizeDay (capGet m.2 1) with
        | some d => addUnique d ds
        | none => ds) ds1
    if ds2.length > 0 then some ds2 else none

/-- `^\d{1,2}(AM|PM)$` as a full-string test. -/
def timeTest1 (F : Nat) (t : List Char) : Bool :=
  matchFull F (.seq d12 ampmPlain) t

/-- `^\d{1,2}\s*(AM|PM)$` as a full-string test. -/
def timeTest2 (F : Nat) (t : List Char) : Bool :=
  matchFull F (seqAll [d12, spacesRE, ampmPlain]) t

/--
```js
function normalizeTime(timeStr) {
  if (!timeStr) return null;
  let t = timeStr.trim().toUpperCase();
  if (/^\d{1,2}(AM|PM)$/i.test(t)) t = t.replace(/(AM|PM)/i, ':00 $1');
  if (/^\d{1,2}\s*(AM|PM)$/i.test(t)) t = t.replace(/(\d+)\s*(AM|PM)/i, '$1:00 $2');
  t = t.replace(/(\d)(AM|PM)/i, '$1 $2');
  return t;
}
```
`none` models the JS `null` returned for a falsy (empty) argument.
-/
def normalizeTime (F : Nat) (timeStr : List Char) : Option (List Char) :=
  if timeStr.isEmpty then none
  else
    let t := upperL (trimL timeStr)
    let t := if timeTest1 F t then
        replaceFirst F (.group 1 ampmPlain)
          (fun caps _ => ':' :: '0' :: '0' :: ' ' :: capGet caps 1) t
      else t
    let t := if timeTest2 F t then
        replaceFirst F (seqAll [.group 1 (plusRE digitRE), spacesRE, .group 2 ampmPlain])
          (fun caps _ => capGet caps 1 ++ ':' :: '0' :: '0' :: ' ' :: capGet caps 2) t
      else t
    some (replaceFirst F (.seq (.group 1 digitRE) (.group 2 ampmPlain))
      (fun caps _ => capGet caps 1 ++ ' ' :: capGet caps 2) t)

/-- JS `x || 'unknown'` for a string-or-null `x` (the empty string is falsy). -/
def orUnknown (o : Option (List Char)) : String :=
  match o with
  | some t => if t.isEmpty then "unknown" else ⟨t⟩
  | none => "unknown"

/-- `extractTimes` (lines 412-435): first the happy-hour-context regex, then
the two `TIME_PATTERNS` in order; the first match wins and both captures are
normalized together. -/
def extractTimes (F : Nat) (text : List Char) : Option (List Char) × Option (List Char) :=
  match searchRE F happyHourCtxRE text with
  | some (_, caps) => (normalizeTime F (capGet caps 1), normalizeTime F (capGet caps 2))
  | none =>
    match searchRE F timePat0 text with
    | some (_, caps) => (normalizeTime F (capGet caps 1), normalizeTime F (capGet caps 2))
    | none =>
      match searchRE F timePat1 text with
      | some (_, caps) => (normalizeTime F (capGet caps 1), normalizeTime F (capGet caps 2))
      | none => (none, none)

/-- `extractDeals` (lines 437-447): collect the distinct trimmed whole-match
strings of every pattern, in discovery order. -/
def extractDeals (F : Nat) (pats : List RE) (text : List Char) : Option (List String) :=
  let deals := pats.foldl
    (fun acc p => (execAll F p text).foldl
      (fun acc2 m => addUnique ⟨trimL m.1⟩ acc2) acc) []
  if deals.isEmpty then none else some deals

/-- A JS value that is either a plain string or an array of strings (the
`days`, `food_deals` and `drink_deals` fields). -/
inductive StrOrList where
  | str (s : String) : StrOrList
  | list (l : List String) : StrOrList
deriving DecidableEq

structure HappyHourRecord where
  days : StrOrList
  start_time : String
  end_time : String
  food_deals : StrOrList
  drink_deals : StrOrList
deriving DecidableEq

def unknownRecord : HappyHourRecord :=
  { days := .str "unknown", start_time := "unknown", end_time := "unknown",
    food_deals := .str "unknown", drink_deals := .str "unknown" }

def orUnknownL (o : Option (List String)) : StrOrList :=
  match o with
  | some l => .list l
  | none => .str "unknown"

/-- `extractHappyHourInfo` (lines 449-472). -/
def extractHappyHourInfo (F : Nat) (rawText : List Char) : HappyHourRecord :=
  if rawText.isEmpty || containsS rawText "No website available"
      || containsS rawText "Unable to crawl" then
    unknownRecord
  else
    let days := extractDays F rawText
    let times := extractTimes F rawText
    let foodDeals := extractDeals F FOOD_PATTERNS rawText
    let drinkDeals := extractDeals F DRINK_PATTERNS rawText
    { days := orUnknownL days,
      start_time := orUnknown times.1,
      end_time := orUnknown times.2,
      food_deals := orUnknownL foodDeals,
      drink_deals := orUnknownL drinkDeals }

/-!
## Venue discovery (`scraper.js`)
-/

/-- A venue record as written to `venues.json`. -/
structure Venue where
  id : String
  name : String
  address : String
  neighborhood : String
  website : Option String
  scraped_at : String
deriving DecidableEq

/-- A raw card scraped from the results feed (name present, address and
website best-effort). -/
structure Scraped where
  name : String
  address : Option String
  neighborhood : String
  website : Option String
deriving DecidableEq

/-- The `scraped.map(...)` step of the scraper's main function (lines
251-258): build `Venue` records with slugified ids. -/
def scrapedToVenues (ts : String) (scraped : List Scraped) : List Venue :=
  scraped.map (fun v =>
    { id := slugify v.name, name := v.name, address := v.address.getD "",
      neighborhood := v.neighborhood, website := v.website, scraped_at := ts })

/-- The de-duplication filter of the scraper's main function (lines 260-266):
keep a venue only when its id has not been seen. -/
def dedupVenuesGo : List Venue → List String → List Venue
  | [], _ => []
  | v :: vs, seen =>
    if seen.contains v.id then dedupVenuesGo vs seen
    else v :: dedupVenuesGo vs (v.id :: seen)

def dedupById (vs : List Venue) : List Venue := dedupVenuesGo vs []

/-- The live-scrape branch of the scraper's main function: map to `Venue`
records, then de-duplicate by id. -/
def scrapePathVenues (ts : String) (scraped : List Scraped) : List Venue :=
  dedupById (scrapedToVenues ts scraped)

/-- One entry of the curated fallback dataset. -/
def fbVenue (ts nbhd name address : String) (website : Option String) : Venue :=
  { id := slugify name, name := name, address := address,
    neighborhood := nbhd, website := website, scraped_at := ts }

/-- `getFallbackVenues` (lines 172-232): the curated LoDo and LoHi venue
lists, pushed in order with slugified ids. -/
def getFallbackVenues (ts : String) : List Venue :=
  [ fbVenue ts "LoDo" "Falling Rock Tap House" "1919 Blake St, Denver, CO 80202" (some "https://fallingrocktaphouse.com"),
    fbVenue ts "LoDo" "Wynkoop Brewing Company" "1634 18th St, Denver, CO 80202" (some "https://wynkoop.com"),
    fbVenue ts "LoDo" "Terminal Bar" "1701 Wynkoop St, Denver, CO 80202" (some "https://theterminalbar.com"),
    fbVenue ts "LoDo" "Herb's Hideout" "2057 Larimer St, Denver, CO 80205" (some "https://herbshideout.com"),
    fbVenue ts "LoDo" "The Cruise Room" "1600 17th St, Denver, CO 80202" (some "https://thecruiseroom.com"),
    fbVenue ts "LoDo" "Retro Room" "1801 Wynkoop St, Denver, CO 80202" none,
    fbVenue ts "LoDo" "Viewhouse Eatery" "2015 Market St, Denver, CO 80205" (some "https://viewhouse.com"),
    fbVenue ts "LoDo" "Nallen's Irish Pub" "1429 Market St, Denver, CO 80202" (some "https://nallensirishpub.com"),
    fbVenue ts "LoDo" "Star Bar Denver" "2137 Larimer St, Denver, CO 80205" (some "https://starbardenver.com"),
    fbVenue ts "LoDo" "The 1UP - LoDo" "1925 Blake St, Denver, CO 80202" (some "https://the1up.com"),
    fbVenue ts "LoDo" "Great Divide Brewing" "2201 Arapahoe St, Denver, CO 80205" (some "https://greatdivide.com"),
    fbVenue ts "LoDo" "Jagged Mountain Craft Brewery" "1139 20th St, Denver, CO 80202" (some "https://jaggedmountainbrewery.com"),
    fbVenue ts "LoHi" "Linger" "2030 W 30th Ave, Denver, CO 80211" (some "https://lingerdenver.com"),
    fbVenue ts "LoHi" "LoHi SteakBar" "3200 Tejon St, Denver, CO 80211" (some "https://lohisteakbar.com"),
    fbVenue ts "LoHi" "Avanti Food & Beverage" "3200 Pecos St, Denver, CO 80211" (some "https://avantifandb.com"),
    fbVenue ts "LoHi" "Little Man Ice Cream" "2620 16th St, Denver, CO 80211" (some "https://littlemanicecream.com"),
    fbVenue ts "LoHi" "Williams & Graham" "3160 Tejon St, Denver, CO 80211" (some "https://williamsandgraham.com"),
    fbVenue ts "LoHi" "Highland Tap and Burger" "2219 W 32nd Ave, Denver, CO 80211" (some "https://highlandtapandburger.com"),
    fbVenue ts "LoHi" "Ale House at Amato's" "2501 16th St, Denver, CO 80211" (some "https://alehousedenver.com"),
    fbVenue ts "LoHi" "Reiver's Bar" "1085 S Gaylord St, Denver, CO 80209" none,
    fbVenue ts "LoHi" "Garibaldi Mexican Bistro" "3055 Zuni St, Denver, CO 80211" (some "https://garibaldimexican.com"),
    fbVenue ts "LoHi" "El Camino Community Tavern" "3628 W 32nd Ave, Denver, CO 80211" (some "https://elcaminotavern.com"),
    fbVenue ts "LoHi" "SeÃ±or Bear" "3301 Tejon St, Denver, CO 80211" (some "https://senorbeardenver.com"),
    fbVenue ts "LoHi" "The Way Back" "3279 Navajo St, Denver, CO 80211" (some "https://thewaybackdenver.com") ]

/-!
## Crawler subpage selection (`crawler.js` lines 51-80)
-/

def INTERESTING_KEYWORDS : List String :=
  ["happy", "special", "menu", "drink", "hour", "deal", "promo", "offer", "food"]

/-- A homepage anchor: resolved `href` and its text content. -/
structure Anchor where
  href : String
  text : String
deriving DecidableEq

/-- Scan past the first `://` of a URL. -/
def afterSchemeGo : List Char → Option (List Char)
  | [] => none
  | ':' :: '/' :: '/' :: rest => some rest
  | _ :: rest => afterSchemeGo rest

/-- `new URL(u).hostname`, modelled for `scheme://host...` URLs: the
characters after `://` up to a delimiter, lower-cased; `none` models a
thrown `TypeError` (no scheme or an empty host). -/
def parseHostname (url : String) : Option String :=
  match afterSchemeGo url.toList with
  | none => none
  | some rest =>
    let h := lowerL (rest.takeWhile
      (fun c => !(c == '/' || c == '?' || c == '#' || c == ':')))
    if h.isEmpty then none else some ⟨h⟩

/-- `[...new Set(links)]`: first-occurrence de-duplication in order. -/
def dedupStrGo : List String → List String → List String
  | [], _ => []
  | x :: xs, seen =>
    if seen.contains x then dedupStrGo xs seen else x :: dedupStrGo xs (x :: seen)

def dedupStr (l : List String) : List String := dedupStrGo l []

def MAX_PAGES_PER_VENUE : Nat := 5

/-- `findRelevantLinks`: keyword-filter the anchors (on lower-cased href or
lower-cased trimmed text), de-duplicate, keep only same-host or subdomain
links, cap at `MAX_PAGES_PER_VENUE`.  A `baseUrl` that fails to parse models
the `catch` branch returning `[]`. -/
def findRelevantLinks (anchors : List Anchor) (baseUrl : String) : List String :=
  let links := ((anchors.map (fun a => (a.href, lowerL (trimL a.text.toList)))).filter
    (fun l => INTERESTING_KEYWORDS.any
      (fun kw => containsS (lowerL l.1.toList) kw || containsSub l.2 kw.toList))).map
    (fun l => l.1)
  match parseHostname baseUrl with
  | none => []
  | some bh =>
    ((dedupStr links).filter (fun href =>
      match parseHostname href with
      | none => false
      | some h => h == bh || endsWithL h.toList ('.' :: bh.toList))).take MAX_PAGES_PER_VENUE

/-!
## Extractor main loop (`extractor.js` lines 474-524)
-/

/-- One entry of `happy_hours.json`: the venue's metadata plus the derived
happy-hour record. -/
structure HHOut where
  id : String
  name : String
  address : String
  neighborhood : String
  website : Option String
  happy_hour : HappyHourRecord
deriving DecidableEq

/-- The per-venue loop of the extractor's `main`: read the venue's raw file
(`rawOf` models `data/raw/`; a missing file yields the empty string) and
push one output record carrying the venue's metadata unchanged. -/
def extractorMain (F : Nat) (venues : List Venue) (rawOf : String → Option String) :
    List HHOut :=
  venues.map (fun v =>
    let rawText := (rawOf v.id).getD ""
    { id := v.id, name := v.name, address := v.address,
      neighborhood := v.neighborhood, website := v.website,
      happy_hour := extractHappyHourInfo F rawText.toList })

/-!
## Frontend filtering (`App.jsx` lines 26-51)
-/

/-- The fields of a final record the frontend filter inspects.  `happy_hour`
is optional (`!hh` guard) and its `days` may be a string or an array. -/
structure FVenue where
  name : String
  neighborhood : String
  happy_hour : Option HappyHourRecord
deriving DecidableEq

/-- The filter predicate of `App`'s `useMemo`, with the three early-return
tests in source order.  The day test fails when `happy_hour` is absent, when
`days` is not an array (`!Array.isArray(hh.days)`), or when the selected day
is not a member. -/
def venuePass (nbhd day search : String) (v : FVenue) : Bool :=
  if nbhd != "All" && v.neighborhood != nbhd then false
  else if day != "All" &&
      (match v.happy_hour with
       | none => true
       | some hh =>
         match hh.days with
         | .list l => !(l.contains day)
         | .str _ => true) then false
  else if !(trimL search.toList).isEmpty &&
      !(containsSub (lowerL v.name.toList) (lowerL (trimL search.toList))) then false
  else true

/-- `data.filter((venue) => ...)`. -/
def filterVenues (data : List FVenue) (nbhd day search : String) : List FVenue :=
  data.filter (venuePass nbhd day search)

/-!
## Spec-side definitions

Definitions below follow the specification's words (not the code) and exist
only to be compared with the code-derived definitions above.
-/

/-- From the spec: the three frontend filter predicates — neighborhood
equals the selected value or the selection is "All"; the selected day is a
member of the record's day list or the selection is "All" (a `days` field
that is not a list fails); the venue name contains the trimmed search string
case-insensitively or the trimmed search is empty. -/
def specNeighborhoodOk (nbhd : String) (v : FVenue) : Bool :=
  nbhd == "All" || v.neighborhood == nbhd

def specDayOk (day : String) (v : FVenue) : Bool :=
  day == "All" ||
    (match v.happy_hour with
     | some hh =>
       match hh.days with
       | .list l => l.contains day
       | .str _ => false
     | none => false)

def specSearchOk (search : String) (v : FVenue) : Bool :=
  (trimL search.toList).isEmpty ||
    containsSub (lowerL v.name.toList) (lowerL (trimL search.toList))

/-- From the spec: the inclusive cyclic range of day names from index `s` to
index `e` under the fixed Monday-first 7-day ordering, wrapping past Sunday
when the end precedes the start. -/
def specCyclicRange (s e : Nat) : List String :=
  if s ≤ e then (List.range (e + 1 - s)).map (fun k => dayAt (s + k))
  else (List.range (7 - s + (e + 1))).map (fun k => dayAt ((s + k) % 7))

/-- The sequence of days visited by `rangeLoop` (proof aid). -/
def visitL : Nat → Nat → Nat → List String
  | 0, _, _ => []
  | fuel + 1, i, stop => if i = stop then [] else dayAt i :: visitL fuel ((i + 1) % 7) stop

/-- The normalized capture pairs of the range matches found in `text`
(proof aid for stating "the only day-range phrase is …"). -/
def rangeCapsNorm (F : Nat) (text : List Char) : List (Option String × Option String) :=
  (execAll F rangeRE text).map
    (fun m => (normalizeDay (capGet m.2 1), normalizeDay (capGet m.2 2)))

/-- The normalized individual day mentions found in `text` (proof aid). -/
def dayMentionsNorm (F : Nat) (text : List Char) : List (Option String) :=
  (execAll F dayMentionRE text).map (fun m => normalizeDay (capGet m.2 1))

/-- The capture pair of the first happy-hour-context match in `text`
(proof aid for stating "the only time mention is …"). -/
def happyHourCtxCaps (F : Nat) (text : List Char) : Option (List Char × List Char) :=
  match searchRE F happyHourCtxRE text with
  | some mc => some (capGet mc.2 1, capGet mc.2 2)
  | none => none

/-!
## Theorems
-/

/-- C1: for every input venue list (and any state of the raw-capture
directory), the extractor's output has the same length as the input, with
one record per venue in input order, and the record at each position
carries the corresponding venue's identifier unmodified — in particular
also when a venue's raw text file is missing (`rawOf v.id = none`). -/
theorem extractor_preserves_ids (F : Nat) (venues : List Venue)
    (rawOf : String → Option String) :
    (extractorMain F venues rawOf).length = venues.length ∧
    (extractorMain F venues rawOf).map (fun r => r.id) = venues.map (fun v => v.id) := by
  refine ⟨?_, ?_⟩
  · simp [extractorMain]
  · induction venues with
    | nil => rfl
    | cons v vs ih => simp [extractorMain]

/-- C2: whenever the raw text is empty (JS falsy) or contains one of the
fixed marker phrases "No website available" or "Unable to crawl",
`extractHappyHourInfo` returns the record whose five fields are all the
string "unknown" — the sentinel branch, taken before any pattern
extraction. -/
theorem sentinel_all_unknown (F : Nat) (raw : List Char)
    (h : (raw.isEmpty || containsS raw "No website available"
      || containsS raw "Unable to crawl") = true) :
    extractHappyHourInfo F raw = unknownRecord := by
  unfold extractHappyHourInfo
  rw [if_pos h]

/-- Witness for C2 at a concrete crawler sentinel body. -/
theorem sentinel_all_unknown_witness :
    (("Website: none\n\nNo website available for crawling.\n".toList.isEmpty
      || containsS "Website: none\n\nNo website available for crawling.\n".toList "No website available"
      || containsS "Website: none\n\nNo website available for crawling.\n".toList "Unable to crawl") = true)
    ∧ extractHappyHourInfo 5 "Website: none\n\nNo website available for crawling.\n".toList
        = unknownRecord :=
  ⟨by decide, sentinel_all_unknown 5 _ (by decide)⟩

/-- C3 counterexample: on the raw text "Happy Hour 3-6pm" — whose only time
mention is that phrase — the extracted start time is not "3:00 PM": the
first capture of the happy-hour-context regex is the bare "3" (the range
separator class cannot extend it), and `normalizeTime` leaves a digit
without an AM/PM marker unchanged. -/
theorem happy_hour_3_6pm_start_not_normalized :
    (extractTimes 2000 "Happy Hour 3-6pm".toList).1 ≠ some "3:00 PM".toList := by
  decide

/-- C3 amended: for every raw text whose only time mention is the phrase
"Happy Hour 3-6pm" — rendered operationally as: the happy-hour-context
regex's first match captures exactly "3" and "6pm" — time extraction yields
start_time "3" (captured without an AM/PM marker, so normalization leaves
it as is) and end_time "6:00 PM"; and normalization adds the minutes
component and the space before the marker to every bare one- or two-digit
hour with an attached am/pm marker of either case (e.g. "5pm" becomes
"5:00 PM"). -/
theorem happy_hour_3_6pm_times_general (text : List Char)
    (h : happyHourCtxCaps 2000 text = some ("3".toList, "6pm".toList)) :
    extractTimes 2000 text = (some "3".toList, some "6:00 PM".toList)
    ∧ (∀ d ∈ "0123456789".toList, ∀ mk ∈ ["am", "pm", "AM", "PM"],
        normalizeTime 50 (d :: mk.toList)
          = some (d :: ':' :: '0' :: '0' :: ' ' :: upperL mk.toList))
    ∧ (∀ d1 ∈ "0123456789".toList, ∀ d2 ∈ "0123456789".toList,
        ∀ mk ∈ ["am", "pm", "AM", "PM"],
        normalizeTime 50 (d1 :: d2 :: mk.toList)
          = some (d1 :: d2 :: ':' :: '0' :: '0' :: ' ' :: upperL mk.toList)) := by
  refine ⟨?_, by decide, by decide⟩
  unfold happyHourCtxCaps at h
  unfold extractTimes
  cases hs : searchRE 2000 happyHourCtxRE text with
  | none =>
    rw [hs] at h
    cases h
  | some mc =>
    obtain ⟨m, caps⟩ := mc
    rw [hs] at h
    have h' : some (capGet caps 1, capGet caps 2)
        = some ("3".toList, "6pm".toList) := h
    injection h' with h''
    have h1 : capGet caps 1 = "3".toList := congrArg Prod.fst h''
    have h2 : capGet caps 2 = "6pm".toList := congrArg Prod.snd h''
    show (normalizeTime 2000 (capGet caps 1), normalizeTime 2000 (capGet caps 2))
      = (some "3".toList, some "6:00 PM".toList)
    rw [h1, h2]
    decide

/-- Witness for C3's amended theorem at the concrete raw text
"Happy Hour 3-6pm". -/
theorem happy_hour_3_6pm_times_general_witness :
    extractTimes 2000 "Happy Hour 3-6pm".toList
      = (some "3".toList, some "6:00 PM".toList) :=
  (happy_hour_3_6pm_times_general "Happy Hour 3-6pm".toList (by decide)).1

/-- `l.contains x` agrees with membership for strings. -/
theorem containsStr_iff {x : String} {l : List String} : l.contains x = true ↔ x ∈ l := by
  simp

/-- Membership in an `addUnique` result. -/
theorem mem_addUnique {d x : String} {l : List String} :
    d ∈ addUnique x l ↔ d = x ∨ d ∈ l := by
  unfold addUnique
  by_cases h : x ∈ l
  · rw [if_pos (containsStr_iff.mpr h)]
    constructor
    · exact fun hd => Or.inr hd
    · rintro (rfl | hd)
      · exact h
      · exact hd
  · rw [if_neg (fun hc => h (containsStr_iff.mp hc))]
    simp [or_comm]

/-- Adding an already-present day is a no-op. -/
theorem addUnique_of_mem {x : String} {l : List String} (h : x ∈ l) :
    addUnique x l = l := by
  unfold addUnique
  rw [if_pos (containsStr_iff.mpr h)]

/-- `addUnique` preserves `Nodup`. -/
theorem nodup_addUnique {x : String} {l : List String} (h : l.Nodup) :
    (addUnique x l).Nodup := by
  unfold addUnique
  by_cases hm : x ∈ l
  · rw [if_pos (containsStr_iff.mpr hm)]; exact h
  · rw [if_neg (fun hc => hm (containsStr_iff.mp hc))]
    simp [List.nodup_append, h, hm]

/-- When both captured day names of a range match normalize to Monday and
Friday, the range handler expands indices 0 through 4. -/
theorem applyRange_MF {c1 c2 : List Char} (h1 : normalizeDay c1 = some "Monday")
    (h2 : normalizeDay c2 = some "Friday") (ds : List String) :
    applyRange c1 c2 ds = applyRangeIdx 0 4 ds := by
  unfold applyRange
  rw [h1, h2]
  rfl

/-- The Monday-to-Friday range fold over the canonical five-day list is
stationary. -/
theorem foldRange_week5 (L : List (List Char × Caps))
    (h : ∀ m ∈ L, (normalizeDay (capGet m.2 1), normalizeDay (capGet m.2 2))
      = (some "Monday", some "Friday")) :
    L.foldl (fun ds m => applyRange (capGet m.2 1) (capGet m.2 2) ds)
      ["Monday", "Tuesday", "Wednesday", "Thursday", "Friday"]
      = ["Monday", "Tuesday", "Wednesday", "Thursday", "Friday"] := by
  induction L with
  | nil => rfl
  | cons m L ih =>
    have hm := h m (List.mem_cons_self m L)
    have h1 : normalizeDay (capGet m.2 1) = some "Monday" := congrArg Prod.fst hm
    have h2 : normalizeDay (capGet m.2 2) = some "Friday" := congrArg Prod.snd hm
    have step : applyRange (capGet m.2 1) (capGet m.2 2)
        ["Monday", "Tuesday", "Wednesday", "Thursday", "Friday"]
        = ["Monday", "Tuesday", "Wednesday", "Thursday", "Friday"] := by
      rw [applyRange_MF h1 h2]; decide
    simp only [List.foldl_cons, step]
    exact ih (fun m' hm' => h m' (List.mem_cons_of_mem m hm'))

/-- A non-empty Monday-to-Friday range fold starting from the empty day set
produces the canonical five-day list. -/
theorem foldRange_from_nil (L : List (List Char × Caps)) (hne : L ≠ [])
    (h : ∀ m ∈ L, (normalizeDay (capGet m.2 1), normalizeDay (capGet m.2 2))
      = (some "Monday", some "Friday")) :
    L.foldl (fun ds m => applyRange (capGet m.2 1) (capGet m.2 2) ds) []
      = ["Monday", "Tuesday", "Wednesday", "Thursday", "Friday"] := by
  cases L with
  | nil => exact absurd rfl hne
  | cons m L =>
    have hm := h m (List.mem_cons_self m L)
    have h1 : normalizeDay (capGet m.2 1) = some "Monday" := congrArg Prod.fst hm
    have h2 : normalizeDay (capGet m.2 2) = some "Friday" := congrArg Prod.snd hm
    have step : applyRange (capGet m.2 1) (capGet m.2 2) ([] : List String)
        = ["Monday", "Tuesday", "Wednesday", "Thursday", "Friday"] := by
      rw [applyRange_MF h1 h2]; decide
    simp only [List.foldl_cons, step]
    exact foldRange_week5 L (fun m' hm' => h m' (List.mem_cons_of_mem m hm'))

/-- The day-mention fold over the canonical five-day list is stationary when
every mention normalizes to Monday or Friday. -/
theorem foldMentions_week5 (L : List (List Char × Caps))
    (h : ∀ m ∈ L, normalizeDay (capGet m.2 1) = some "Monday"
      ∨ normalizeDay (capGet m.2 1) = some "Friday") :
    L.foldl (fun ds m =>
        match normalizeDay (capGet m.2 1) with
        | some d => addUnique d ds
        | none => ds)
      ["Monday", "Tuesday", "Wednesday", "Thursday", "Friday"]
      = ["Monday", "Tuesday", "Wednesday", "Thursday", "Friday"] := by
  induction L with
  | nil => rfl
  | cons m L ih =>
    have step : (match normalizeDay (capGet m.2 1) with
        | some d => addUnique d ["Monday", "Tuesday", "Wednesday", "Thursday", "Friday"]
        | none => ["Monday", "Tuesday", "Wednesday", "Thursday", "Friday"])
        = ["Monday", "Tuesday", "Wednesday", "Thursday", "Friday"] := by
      rcases h m (List.mem_cons_self m L) with hm | hm <;> rw [hm] <;> decide
    simp only [List.foldl_cons, step]
    exact ih (fun m' hm' => h m' (List.mem_cons_of_mem m hm'))

/-- C5: for every raw text that contains the phrase "Monday-Friday" as its
only day-indicating phrase — no whole-week or weekday/weekend keyword, every
day-range match normalizing to (Monday, Friday) with at least one such
match, and every individual day mention normalizing to Monday or Friday —
day extraction yields exactly Monday through Friday in canonical
Monday-first order. -/
theorem monday_friday_extractDays (F : Nat) (text : List Char)
    (h1 : containsS (lowerL text) "daily" = false)
    (h2 : containsS (lowerL text) "every day" = false)
    (h3 : containsS (lowerL text) "7 days" = false)
    (h4 : containsS (lowerL text) "weekday" = false)
    (h5 : containsS (lowerL text) "weekend" = false)
    (h6 : rangeCapsNorm F text ≠ [])
    (h7 : ∀ p ∈ rangeCapsNorm F text, p = (some "Monday", some "Friday"))
    (h8 : ∀ o ∈ dayMentionsNorm F text, o = some "Monday" ∨ o = some "Friday") :
    extractDays F text = some ["Monday", "Tuesday", "Wednesday", "Thursday", "Friday"] := by
  have h7' : ∀ m ∈ execAll F rangeRE text,
      (normalizeDay (capGet m.2 1), normalizeDay (capGet m.2 2))
        = (some "Monday", some "Friday") := by
    intro m hm
    exact h7 _ (List.mem_map_of_mem _ hm)
  have h6' : execAll F rangeRE text ≠ [] := by
    intro hnil
    exact h6 (by simp [rangeCapsNorm, hnil])
  have h8' : ∀ m ∈ execAll F dayMentionRE text,
      normalizeDay (capGet m.2 1) = some "Monday"
        ∨ normalizeDay (capGet m.2 1) = some "Friday" := by
    intro m hm
    exact h8 _ (List.mem_map_of_mem _ hm)
  simp only [extractDays]
  rw [h1, h2, h3, h4, h5]
  simp only [Bool.or_false, Bool.false_or, Bool.false_eq_true, if_false]
  rw [foldRange_from_nil _ h6' h7', foldMentions_week5 _ h8']
  rfl

/-- Witness for C5 at the concrete raw text "Monday-Friday". -/
theorem monday_friday_extractDays_witness :
    extractDays 2000 "Monday-Friday".toList
      = some ["Monday", "Tuesday", "Wednesday", "Thursday", "Friday"] :=
  monday_friday_extractDays 2000 "Monday-Friday".toList
    (by decide) (by decide) (by decide) (by decide) (by decide)
    (by decide) (by decide) (by decide)

/-- C4 counterexample: the abbreviated range phrase "Mon thru Fri" is not
expanded — the range regex only matches full day names, so only the two
individually mentioned days survive, not the inclusive Monday-to-Friday
range the claim requires (Tuesday, Wednesday and Thursday are absent). -/
theorem mon_thru_fri_not_expanded :
    extractDays 2000 "Mon thru Fri".toList = some ["Monday", "Friday"] := by
  decide

/-- Membership in the range loop's result: the starting set plus the
visited days. -/
theorem mem_rangeLoop (fuel : Nat) :
    ∀ (i stop : Nat) (ds : List String) (d : String),
      d ∈ rangeLoop fuel i stop ds ↔ d ∈ ds ∨ d ∈ visitL fuel i stop := by
  induction fuel with
  | zero => intro i stop ds d; simp [rangeLoop, visitL]
  | succ fuel ih =>
    intro i stop ds d
    by_cases h : i = stop
    · simp [rangeLoop, visitL, h]
    · rw [rangeLoop, visitL, if_neg h, if_neg h, ih, mem_addUnique]
      simp only [List.mem_cons]
      tauto

/-- Membership in the range handler's result: the starting set plus the end
day and the loop's visited days. -/
theorem mem_applyRangeIdx (s e : Nat) (ds : List String) (d : String) :
    d ∈ applyRangeIdx s e ds ↔ d ∈ ds ∨ d ∈ dayAt e :: visitL 7 s ((e + 1) % 7) := by
  unfold applyRangeIdx
  rw [mem_addUnique, mem_rangeLoop]
  simp only [List.mem_cons]
  tauto

/-- For every in-range pair of start and end indices that does not wrap all
the way around, the visited days together with the end day are exactly the
spec's inclusive cyclic range (checked over all 49 index pairs). -/
theorem visit_eq_specCyclicRange :
    ∀ s, s < 7 → ∀ e, e < 7 → s ≠ (e + 1) % 7 →
      ((dayAt e :: visitL 7 s ((e + 1) % 7)).all
          (fun d => (specCyclicRange s e).contains d)
        ∧ (specCyclicRange s e).all
          (fun d => (dayAt e :: visitL 7 s ((e + 1) % 7)).contains d)) := by
  decide

/-- C4 amended: the range handler of day extraction, given normalized start
index `s` and end index `e` (both below 7), adds exactly the inclusive
cyclic range from `s` to `e` — except when the end day cyclically
immediately precedes the start day (`s = (e+1) mod 7`, a full-week range
such as Monday through Sunday), in which case the loop body never runs and
only the end day is added.  (Abbreviated phrases such as "Mon thru Fri" are
not recognized as ranges at all; see the counterexample.) -/
theorem range_expansion_amended (s e : Nat) (hs : s < 7) (he : e < 7) :
    (s ≠ (e + 1) % 7 →
      ∀ (ds : List String) (d : String),
        (d ∈ applyRangeIdx s e ds ↔ d ∈ ds ∨ d ∈ specCyclicRange s e))
    ∧ (s = (e + 1) % 7 → ∀ ds : List String,
        applyRangeIdx s e ds = addUnique (dayAt e) ds) := by
  constructor
  · intro hne ds d
    rw [mem_applyRangeIdx]
    have key := visit_eq_specCyclicRange s hs e he hne
    simp only [List.all_eq_true] at key
    constructor
    · rintro (hds | hv)
      · exact Or.inl hds
      · exact Or.inr (containsStr_iff.mp (key.1 d hv))
    · rintro (hds | hv)
      · exact Or.inl hds
      · exact Or.inr (containsStr_iff.mp (key.2 d hv))
  · intro h ds
    unfold applyRangeIdx
    rw [← h]
    rw [show rangeLoop 7 s s ds = ds from by simp [rangeLoop]]

/-- Witness for C4's amended theorem: the Monday-to-Friday instance of the
non-wrapping case and the Monday-to-Sunday instance of the full-week case. -/
theorem range_expansion_amended_witness :
    ("Wednesday" ∈ applyRangeIdx 0 4 []
      ↔ "Wednesday" ∈ ([] : List String) ∨ "Wednesday" ∈ specCyclicRange 0 4)
    ∧ applyRangeIdx 0 6 [] = addUnique (dayAt 6) [] :=
  ⟨(range_expansion_amended 0 4 (by decide) (by decide)).1 (by decide) [] "Wednesday",
   (range_expansion_amended 0 6 (by decide) (by decide)).2 (by decide) []⟩

/-- The day-set invariant carried through `extractDays`. -/
def DayInv (ds : List String) : Prop :=
  ds.Nodup ∧ ∀ d ∈ ds, d ∈ DAYS_OF_WEEK

theorem dayAt_mem {i : Nat} (h : i < 7) : dayAt i ∈ DAYS_OF_WEEK := by
  interval_cases i <;> decide

theorem dayInv_addUnique {x : String} {ds : List String} (hx : x ∈ DAYS_OF_WEEK)
    (h : DayInv ds) : DayInv (addUnique x ds) := by
  refine ⟨nodup_addUnique h.1, ?_⟩
  intro d hd
  rcases mem_addUnique.mp hd with rfl | hd'
  · exact hx
  · exact h.2 d hd'

theorem dayInv_rangeLoop (fuel : Nat) :
    ∀ (i stop : Nat) (ds : List String), i < 7 → DayInv ds →
      DayInv (rangeLoop fuel i stop ds) := by
  induction fuel with
  | zero => intro i stop ds _ h; exact h
  | succ fuel ih =>
    intro i stop ds hi h
    rw [rangeLoop]
    split
    · exact h
    · exact ih _ _ _ (Nat.mod_lt _ (by decide)) (dayInv_addUnique (dayAt_mem hi) h)

theorem dayInv_applyRange (c1 c2 : List Char) {ds : List String} (h : DayInv ds) :
    DayInv (applyRange c1 c2 ds) := by
  unfold applyRange
  cases h1 : normalizeDay c1 with
  | none => exact h
  | some d1 =>
    cases h2 : normalizeDay c2 with
    | none => exact h
    | some d2 =>
      simp only []
      split
      · rename_i hlt
        rw [Bool.and_eq_true, decide_eq_true_eq, decide_eq_true_eq] at hlt
        exact dayInv_addUnique (dayAt_mem hlt.2)
          (dayInv_rangeLoop 7 _ _ _ hlt.1 h)
      · exact h

theorem normalizeDay_mem {c : List Char} {d : String} (h : normalizeDay c = some d) :
    d ∈ DAYS_OF_WEEK := by
  simp only [normalizeDay] at h
  exact List.mem_of_find?_eq_some h

theorem dayInv_extractDays {F : Nat} {text : List Char} {l : List String}
    (h : extractDays F text = some l) : l ≠ [] ∧ DayInv l := by
  simp only [extractDays] at h
  split at h
  · cases h
    exact ⟨by decide, by decide, fun d hd => hd⟩
  · split at h
    · cases h
      exact ⟨by decide, by decide, by decide⟩
    · generalize hds0 : (if containsS (lowerL text) "weekend" = true then
          addUnique "Sunday" (addUnique "Saturday" []) else []) = ds0 at h
      have inv0 : DayInv ds0 := by
        rw [← hds0]
        split <;> exact ⟨by decide, by decide⟩
      generalize hds1 : List.foldl
          (fun ds m => applyRange (capGet m.2 1) (capGet m.2 2) ds) ds0
          (execAll F rangeRE text) = ds1 at h
      have inv1 : DayInv ds1 := by
        rw [← hds1]
        generalize execAll F rangeRE text = L
        clear hds1 hds0 h
        induction L generalizing ds0 with
        | nil => exact inv0
        | cons m L ih =>
          exact ih _ (dayInv_applyRange (capGet m.2 1) (capGet m.2 2) inv0)
      generalize hds2 : List.foldl
          (fun ds m =>
            match normalizeDay (capGet m.2 1) with
            | some d => addUnique d ds
            | none => ds) ds1
          (execAll F dayMentionRE text) = ds2 at h
      have inv2 : DayInv ds2 := by
        rw [← hds2]
        generalize execAll F dayMentionRE text = L
        clear hds2 hds1 hds0 h
        induction L generalizing ds1 with
        | nil => exact inv1
        | cons m L ih =>
          refine ih _ ?_
          show DayInv (match normalizeDay (capGet m.2 1) with
            | some d => addUnique d ds1
            | none => ds1)
          cases hn : normalizeDay (capGet m.2 1) with
          | none => exact inv1
          | some d => exact dayInv_addUnique (normalizeDay_mem hn) inv1
      by_cases hlen : ds2.length > 0
      · rw [if_pos hlen] at h
        cases h
        refine ⟨?_, inv2⟩
        intro hnil
        rw [hnil] at hlen
        exact absurd hlen (by decide)
      · rw [if_neg hlen] at h
        exact absurd h (by simp)

/-- C8: whenever the extracted record's `days` field is a list (not the
string "unknown"), that list is non-empty, has no duplicate entries, and
every entry is one of the seven weekday names Monday through Sunday. -/
theorem days_field_invariant (F : Nat) (raw : List Char) (l : List String)
    (h : (extractHappyHourInfo F raw).days = StrOrList.list l) :
    l ≠ [] ∧ l.Nodup ∧ ∀ d ∈ l, d ∈ DAYS_OF_WEEK := by
  unfold extractHappyHourInfo at h
  split at h
  · exact absurd h (by simp [unknownRecord])
  · simp only [orUnknownL] at h
    cases hd : extractDays F raw with
    | none => rw [hd] at h; exact absurd h (by simp)
    | some l' =>
      rw [hd] at h
      simp only [StrOrList.list.injEq] at h
      cases h
      obtain ⟨hne, hinv⟩ := dayInv_extractDays hd
      exact ⟨hne, hinv.1, hinv.2⟩

/-- Witness for C8: the raw text "Open daily" yields the full week. -/
theorem days_field_invariant_witness :
    DAYS_OF_WEEK ≠ [] ∧ DAYS_OF_WEEK.Nodup ∧ ∀ d ∈ DAYS_OF_WEEK, d ∈ DAYS_OF_WEEK :=
  days_field_invariant 50 "Open daily".toList DAYS_OF_WEEK (by decide)

/-- The string de-duplication pass produces no duplicates and nothing from
the seen set. -/
theorem dedupStrGo_nodup : ∀ (l seen : List String),
    (dedupStrGo l seen).Nodup ∧ ∀ x ∈ dedupStrGo l seen, x ∉ seen := by
  intro l
  induction l with
  | nil => intro seen; exact ⟨List.nodup_nil, by intro x hx; cases hx⟩
  | cons a as ih =>
    intro seen
    unfold dedupStrGo
    split
    · exact ⟨(ih seen).1, (ih seen).2⟩
    · rename_i hns
      have hmem : a ∉ seen := fun hm => hns (containsStr_iff.mpr hm)
      have h1 := ih (a :: seen)
      refine ⟨List.nodup_cons.mpr ⟨?_, h1.1⟩, ?_⟩
      · intro ha
        exact (h1.2 a ha) (List.mem_cons_self a seen)
      · intro x hx
        rcases List.mem_cons.mp hx with rfl | hx'
        · exact hmem
        · exact fun hs => (h1.2 x hx') (List.mem_cons_of_mem a hs)

theorem dedupStr_nodup (l : List String) : (dedupStr l).Nodup :=
  (dedupStrGo_nodup l []).1

/-- C6: the crawler's subpage selection returns at most
`MAX_PAGES_PER_VENUE` (5) links, contains no duplicates, and every returned
link's hostname is the venue website's hostname or a subdomain of it. -/
theorem findRelevantLinks_bounded (anchors : List Anchor) (baseUrl : String) :
    (findRelevantLinks anchors baseUrl).length ≤ MAX_PAGES_PER_VENUE
    ∧ (findRelevantLinks anchors baseUrl).Nodup
    ∧ ∀ href ∈ findRelevantLinks anchors baseUrl,
        ∃ bh hn, parseHostname baseUrl = some bh ∧ parseHostname href = some hn
          ∧ (hn = bh ∨ endsWithL hn.toList ('.' :: bh.toList) = true) := by
  unfold findRelevantLinks
  cases hb : parseHostname baseUrl with
  | none => exact ⟨by simp [MAX_PAGES_PER_VENUE], List.nodup_nil, by intro href h; cases h⟩
  | some bh =>
    simp only []
    refine ⟨?_, ?_, ?_⟩
    · rw [List.length_take]
      exact Nat.min_le_left _ _
    · exact ((dedupStr_nodup _).filter _).sublist (List.take_sublist _ _)
    · intro href hmem
      have hf : href ∈ List.filter _ (dedupStr _) := List.mem_of_mem_take hmem
      have hp := (List.mem_filter.mp hf).2
      cases hh : parseHostname href with
      | none => rw [hh] at hp; cases hp
      | some hn =>
        rw [hh] at hp
        refine ⟨bh, hn, rfl, rfl, ?_⟩
        rcases Bool.or_eq_true_iff.mp hp with h1 | h2
        · exact Or.inl (by simpa using h1)
        · exact Or.inr h2

/-- Witness for C6 on a concrete homepage. -/
theorem findRelevantLinks_bounded_witness :
    ∃ bh hn, parseHostname "https://example.com" = some bh
      ∧ parseHostname "https://example.com/menu" = some hn
      ∧ (hn = bh ∨ endsWithL hn.toList ('.' :: bh.toList) = true) :=
  (findRelevantLinks_bounded
      [{ href := "https://example.com/menu", text := "Menu" }] "https://example.com").2.2
    "https://example.com/menu" (by decide)

/-- The venue de-duplication pass: output ids are distinct and none is in
the seen set. -/
theorem dedupVenuesGo_nodup : ∀ (vs : List Venue) (seen : List String),
    ((dedupVenuesGo vs seen).map (fun v => v.id)).Nodup
    ∧ ∀ v ∈ dedupVenuesGo vs seen, v.id ∉ seen := by
  intro vs
  induction vs with
  | nil => intro seen; exact ⟨List.nodup_nil, by intro v hv; cases hv⟩
  | cons w vs ih =>
    intro seen
    unfold dedupVenuesGo
    split
    · exact ih seen
    · rename_i hns
      have hmem : w.id ∉ seen := fun hm => hns (containsStr_iff.mpr hm)
      have h1 := ih (w.id :: seen)
      refine ⟨?_, ?_⟩
      · rw [List.map_cons, List.nodup_cons]
        refine ⟨?_, h1.1⟩
        intro hid
        rcases List.mem_map.mp hid with ⟨v, hv, hveq⟩
        exact (h1.2 v hv) (hveq ▸ List.mem_cons_self w.id seen)
      · intro v hv
        rcases List.mem_cons.mp hv with rfl | hv'
        · exact hmem
        · exact fun hs => (h1.2 v hv') (List.mem_cons_of_mem w.id hs)

/-- De-duplication only drops elements: the output is a sublist (order and
positions preserved). -/
theorem dedupVenuesGo_sublist : ∀ (vs : List Venue) (seen : List String),
    (dedupVenuesGo vs seen).Sublist vs := by
  intro vs
  induction vs with
  | nil => intro seen; exact List.Sublist.refl []
  | cons w vs ih =>
    intro seen
    unfold dedupVenuesGo
    split
    · exact (ih seen).cons w
    · exact (ih (w.id :: seen)).cons₂ w

/-- Every survivor of the de-duplication pass is the first element of the
input carrying its id. -/
theorem dedupVenuesGo_first : ∀ (vs : List Venue) (seen : List String),
    ∀ v ∈ dedupVenuesGo vs seen, vs.find? (fun w => w.id == v.id) = some v := by
  intro vs
  induction vs with
  | nil => intro seen v hv; cases hv
  | cons w vs ih =>
    intro seen v hv
    rw [dedupVenuesGo] at hv
    split at hv
    · rename_i hns
      have hvseen := (dedupVenuesGo_nodup vs seen).2 v hv
      have hne : w.id ≠ v.id := by
        intro he
        exact hvseen (he ▸ containsStr_iff.mp hns)
      rw [List.find?_cons, beq_eq_false_iff_ne.mpr hne]
      exact ih seen v hv
    · rcases List.mem_cons.mp hv with rfl | hv'
      · rw [List.find?_cons, beq_self_eq_true v.id]
      · have hvseen := (dedupVenuesGo_nodup vs (w.id :: seen)).2 v hv'
        have hne : w.id ≠ v.id := by
          intro he
          exact hvseen (he ▸ List.mem_cons_self w.id seen)
        rw [List.find?_cons, beq_eq_false_iff_ne.mpr hne]
        exact ih (w.id :: seen) v hv'

/-- Every input venue's id survives de-duplication (or was already seen). -/
theorem dedupVenuesGo_covers : ∀ (vs : List Venue) (seen : List String),
    ∀ v ∈ vs, v.id ∈ seen ∨ ∃ w ∈ dedupVenuesGo vs seen, w.id = v.id := by
  intro vs
  induction vs with
  | nil => intro seen v hv; cases hv
  | cons w vs ih =>
    intro seen v hv
    rw [dedupVenuesGo]
    rcases List.mem_cons.mp hv with rfl | hv'
    · split
      · rename_i hns
        exact Or.inl (containsStr_iff.mp hns)
      · exact Or.inr ⟨v, List.mem_cons_self _ _, rfl⟩
    · split
      · exact ih seen v hv'
      · rcases ih (w.id :: seen) v hv' with hseen | ⟨w', hw', heq⟩
        · rcases List.mem_cons.mp hseen with heq | hseen'
          · exact Or.inr ⟨w, List.mem_cons_self _ _, heq.symm⟩
          · exact Or.inl hseen'
        · exact Or.inr ⟨w', List.mem_cons_of_mem w hw', heq⟩

/-- C7: after discovery, no two output venues share an identifier.  On the
live-scrape path the de-duplication filter keeps, for each slug, exactly the
first-encountered venue in its original position (the output is a sublist of
the mapped input, each survivor is the input's first venue with its id, and
every input id is represented); on the fallback path the curated list's
slugs are pairwise distinct. -/
theorem discovery_dedup (ts : String) (scraped : List Scraped) :
    ((scrapePathVenues ts scraped).map (fun v => v.id)).Nodup
    ∧ (scrapePathVenues ts scraped).Sublist (scrapedToVenues ts scraped)
    ∧ (∀ v ∈ scrapePathVenues ts scraped,
        (scrapedToVenues ts scraped).find? (fun w => w.id == v.id) = some v)
    ∧ (∀ v ∈ scrapedToVenues ts scraped,
        ∃ w ∈ scrapePathVenues ts scraped, w.id = v.id)
    ∧ ((getFallbackVenues ts).map (fun v => v.id)).Nodup := by
  refine ⟨(dedupVenuesGo_nodup _ []).1, dedupVenuesGo_sublist _ [],
    dedupVenuesGo_first _ [] , ?_, ?_⟩
  · intro v hv
    rcases dedupVenuesGo_covers (scrapedToVenues ts scraped) [] v hv with hseen | hex
    · cases hseen
    · exact hex
  · have hids : (getFallbackVenues ts).map (fun v : Venue => v.id)
        = ["falling-rock-tap-house", "wynkoop-brewing-company", "terminal-bar",
           "herb-s-hideout", "the-cruise-room", "retro-room", "viewhouse-eatery",
           "nallen-s-irish-pub", "star-bar-denver", "the-1up-lodo",
           "great-divide-brewing", "jagged-mountain-craft-brewery", "linger",
           "lohi-steakbar", "avanti-food-beverage", "little-man-ice-cream",
           "williams-graham", "highland-tap-and-burger", "ale-house-at-amato-s",
           "reiver-s-bar", "garibaldi-mexican-bistro", "el-camino-community-tavern",
           "se-or-bear", "the-way-back"] := rfl
    rw [hids]
    decide

/-- Witness for C7: two scraped venues slugifying to "bar-x"; the first one
survives and is the first hit of `find?` on the mapped input. -/
theorem discovery_dedup_witness :
    (scrapedToVenues "t0"
        [⟨"Bar X", some "1 A St", "LoDo", none⟩,
         ⟨"Bar X!", some "2 B St", "LoHi", none⟩]).find?
        (fun w => w.id == (⟨"bar-x", "Bar X", "1 A St", "LoDo", none, "t0"⟩ : Venue).id)
      = some ⟨"bar-x", "Bar X", "1 A St", "LoDo", none, "t0"⟩ :=
  (discovery_dedup "t0"
      [⟨"Bar X", some "1 A St", "LoDo", none⟩,
       ⟨"Bar X!", some "2 B St", "LoHi", none⟩]).2.2.1 _ (by decide)

/-- An early-return step as a conjunct. -/
theorem iteBool_false (p q : Bool) : (if p = true then false else q) = (!p && q) := by
  cases p <;> simp

/-- The frontend's early-return predicate agrees pointwise with the
conjunction of the spec's three filter predicates. -/
theorem venuePass_eq_spec (nbhd day search : String) (v : FVenue) :
    venuePass nbhd day search v
      = (specNeighborhoodOk nbhd v && specDayOk day v && specSearchOk search v) := by
  have hX : (match v.happy_hour with
      | none => true
      | some hh =>
        match hh.days with
        | .list l => !(l.contains day)
        | .str _ => true)
      = !(match v.happy_hour with
      | some hh =>
        match hh.days with
        | .list l => l.contains day
        | .str _ => false
      | none => false) := by
    cases v.happy_hour with
    | none => rfl
    | some hh =>
      rcases hh with ⟨days, st, et, fd, dd⟩
      cases days with
      | list l => rfl
      | str s => rfl
  unfold venuePass specNeighborhoodOk specDayOk specSearchOk
  rw [hX]
  simp only [bne]
  rw [iteBool_false, iteBool_false, iteBool_false]
  simp [Bool.not_and, Bool.not_not, Bool.and_assoc]

/-- C9: the frontend's filtered list is exactly the input records, in input
order, that pass all three predicates — neighborhood equal to the selection
(or "All"), selected day a member of the record's day list (or "All";
non-list `days` fields fail), and case-insensitive substring match of the
trimmed search string on the venue name (or empty trimmed search). -/
theorem frontend_filter_correct (data : List FVenue) (nbhd day search : String) :
    filterVenues data nbhd day search
      = data.filter (fun v =>
          specNeighborhoodOk nbhd v && specDayOk day v && specSearchOk search v)
    ∧ ∀ v, v ∈ filterVenues data nbhd day search ↔
        v ∈ data ∧ specNeighborhoodOk nbhd v = true ∧ specDayOk day v = true
          ∧ specSearchOk search v = true := by
  have hfe : filterVenues data nbhd day search
      = data.filter (fun v =>
          specNeighborhoodOk nbhd v && specDayOk day v && specSearchOk search v) := by
    unfold filterVenues
    exact List.filter_congr (fun v _ => venuePass_eq_spec nbhd day search v)
  refine ⟨hfe, ?_⟩
  intro v
  rw [hfe, List.mem_filter]
  simp [and_assoc]

theorem keepC_ne_dash {c : Char} (h : keepC c = true) : c ≠ '-' := by
  intro he
  rw [he] at h
  exact absurd h (by decide)

/-- Every character emitted by the collapse pass is kept or a hyphen. -/
theorem mem_collapseGo : ∀ (l : List Char) (flag : Bool) (c : Char),
    c ∈ collapseGo flag l → keepC c = true ∨ c = '-' := by
  intro l
  induction l with
  | nil => intro flag c hc; cases hc
  | cons a as ih =>
    intro flag c hc
    rw [collapseGo] at hc
    split at hc
    · rcases List.mem_cons.mp hc with rfl | hc'
      · rename_i hk; exact Or.inl hk
      · exact ih false c hc'
    · split at hc
      · exact ih true c hc
      · rcases List.mem_cons.mp hc with rfl | hc'
        · exact Or.inr rfl
        · exact ih true c hc'

/-- Inside a run, the next emitted character is a kept one. -/
theorem collapseGo_true_head : ∀ (l : List Char) (c : Char) (rest : List Char),
    collapseGo true l = c :: rest → keepC c = true := by
  intro l
  induction l with
  | nil => intro c rest h; cases h
  | cons a as ih =>
    intro c rest h
    rw [collapseGo] at h
    split at h
    · rename_i hk; cases h; exact hk
    · rw [if_pos rfl] at h
      exact ih c rest h

/-- After an emitted hyphen the next emitted character is a kept one. -/
theorem collapseGo_false_dash_head : ∀ (l : List Char) (x : Char) (rest : List Char),
    collapseGo false l = '-' :: x :: rest → keepC x = true := by
  intro l
  induction l with
  | nil => intro x rest h; cases h
  | cons a as ih =>
    intro x rest h
    rw [collapseGo] at h
    split at h
    · rename_i hk
      injection h with h1 h2
      exact absurd (h1 ▸ hk) (by decide)
    · rw [if_neg (by simp)] at h
      injection h with h1 h2
      exact collapseGo_true_head as x rest h2

/-- A kept character is not the hyphen, as a boolean equality. -/
theorem dash_beq_keep_false {a : Char} (h : keepC a = true) : ('-' == a) = false := by
  cases hb : ('-' == a)
  · rfl
  · exact absurd (beq_iff_eq.mp hb).symm (keepC_ne_dash h)

/-- The collapse pass never emits two consecutive hyphens. -/
theorem noDD_collapseGo : ∀ (l : List Char) (flag : Bool),
    containsSub (collapseGo flag l) ['-', '-'] = false := by
  intro l
  induction l with
  | nil => intro flag; rfl
  | cons a as ih =>
    intro flag
    rw [collapseGo]
    split
    · rename_i hk
      show (isPrefL ['-', '-'] (a :: collapseGo false as)
        || containsSub (collapseGo false as) ['-', '-']) = false
      rw [ih false]
      simp [isPrefL, dash_beq_keep_false hk]
    · split
      · exact ih true
      · show (isPrefL ['-', '-'] ('-' :: collapseGo true as)
          || containsSub (collapseGo true as) ['-', '-']) = false
        rw [ih true]
        have hpref : isPrefL ['-', '-'] ('-' :: collapseGo true as) = false := by
          cases hY : collapseGo true as with
          | nil => rfl
          | cons y ys =>
            have hy := collapseGo_true_head as y ys hY
            show (('-' == '-') && (('-' == y) && isPrefL [] ys)) = false
            rw [dash_beq_keep_false hy]
            rfl
        rw [hpref]
        rfl

theorem isPrefL_append {nd : List Char} : ∀ {s : List Char} (t : List Char),
    isPrefL nd s = true → isPrefL nd (s ++ t) = true := by
  induction nd with
  | nil => intro s t _; rfl
  | cons n ns ih =>
    intro s t h
    cases s with
    | nil => cases h
    | cons a as =>
      rw [List.cons_append]
      show (n == a && isPrefL ns (as ++ t)) = true
      have h' : (n == a && isPrefL ns as) = true := h
      rcases Bool.and_eq_true_iff.mp h' with ⟨h1, h2⟩
      rw [h1, ih t h2]
      rfl

theorem containsSub_nil_needle : ∀ l : List Char, containsSub l [] = true := by
  intro l
  cases l <;> rfl

/-- An occurrence in the right part survives prepending. -/
theorem containsSub_append_right (l : List Char) {t nd : List Char}
    (h : containsSub t nd = true) : containsSub (l ++ t) nd = true := by
  induction l with
  | nil => exact h
  | cons a as ih =>
    rw [List.cons_append]
    show (isPrefL nd (a :: (as ++ t)) || containsSub (as ++ t) nd) = true
    rw [ih]
    exact Bool.or_true _

/-- An occurrence in the left part survives appending. -/
theorem containsSub_append_left {l : List Char} (t : List Char) {nd : List Char}
    (h : containsSub l nd = true) : containsSub (l ++ t) nd = true := by
  induction l with
  | nil =>
    have : nd = [] := by
      cases nd
      · rfl
      · cases h
    rw [this]
    exact containsSub_nil_needle _
  | cons a as ih =>
    rcases Bool.or_eq_true_iff.mp h with h1 | h2
    · have hp := isPrefL_append t h1
      rw [List.cons_append] at hp
      rw [List.cons_append]
      show (isPrefL nd (a :: (as ++ t)) || containsSub (as ++ t) nd) = true
      rw [hp]
      rfl
    · rw [List.cons_append]
      show (isPrefL nd (a :: (as ++ t)) || containsSub (as ++ t) nd) = true
      rw [ih h2]
      exact Bool.or_true _

theorem containsSub_tail {a : Char} {l nd : List Char}
    (h : containsSub (a :: l) nd = false) : containsSub l nd = false := by
  cases hc : containsSub l nd
  · rfl
  · have : containsSub (a :: l) nd = true := by
      show (isPrefL nd (a :: l) || containsSub l nd) = true
      rw [hc]
      exact Bool.or_true _
    rw [this] at h
    cases h

theorem containsSub_dropLast {l nd : List Char} (h : containsSub l nd = false) :
    containsSub l.dropLast nd = false := by
  cases hc : containsSub l.dropLast nd
  · rfl
  · exfalso
    rcases List.eq_nil_or_concat l with rfl | ⟨init, x, rfl⟩
    · rw [show ([] : List Char).dropLast = [] from rfl] at hc
      rw [hc] at h
      cases h
    · rw [List.concat_eq_append] at h hc
      rw [List.dropLast_concat] at hc
      have := containsSub_append_left [x] hc
      rw [this] at h
      cases h

/-- A list whose last two entries are both hyphens contains "--". -/
theorem lastTwoDash {l : List Char} (h1 : l.getLast? = some '-')
    (h2 : l.dropLast.getLast? = some '-') : containsSub l ['-', '-'] = true := by
  have hne : l ≠ [] := by intro he; rw [he] at h1; cases h1
  have hdne : l.dropLast ≠ [] := by intro he; rw [he] at h2; cases h2
  have g1 : l.getLast hne = '-' := by
    rw [List.getLast?_eq_getLast l hne] at h1
    exact Option.some.inj h1
  have g2 : l.dropLast.getLast hdne = '-' := by
    rw [List.getLast?_eq_getLast _ hdne] at h2
    exact Option.some.inj h2
  have e1 : l.dropLast ++ [l.getLast hne] = l := List.dropLast_append_getLast hne
  have e2 : l.dropLast.dropLast ++ [l.dropLast.getLast hdne] = l.dropLast :=
    List.dropLast_append_getLast hdne
  rw [g1] at e1
  rw [g2] at e2
  rw [← e1, ← e2, List.append_assoc]
  exact containsSub_append_right _ (by decide)

theorem head?_dropLast (l : List Char) :
    l.dropLast.head? = none ∨ l.dropLast.head? = l.head? := by
  match l with
  | [] => exact Or.inl rfl
  | [a] => exact Or.inl rfl
  | a :: b :: t => exact Or.inr (by rw [List.dropLast_cons₂]; rfl)

/-- The shape guarantees of the leading-hyphen strip. -/
theorem stripFront_shape (l : List Char)
    (hmem : ∀ c ∈ l, keepC c = true ∨ c = '-')
    (hdd : containsSub l ['-', '-'] = false)
    (hdh : ∀ x rest, l = '-' :: x :: rest → keepC x = true) :
    (∀ c ∈ stripFront l, keepC c = true ∨ c = '-')
    ∧ (∀ x rest, stripFront l = x :: rest → keepC x = true)
    ∧ containsSub (stripFront l) ['-', '-'] = false := by
  cases l with
  | nil => exact ⟨(by intro c hc; cases hc), (by intro x rest h; cases h), rfl⟩
  | cons c rest =>
    by_cases hc : c = '-'
    · subst hc
      rw [show stripFront ('-' :: rest) = rest from by simp [stripFront]]
      exact ⟨fun d hd => hmem d (List.mem_cons_of_mem _ hd),
        fun x rest' h => hdh x rest' (by rw [h]),
        containsSub_tail hdd⟩
    · rw [show stripFront (c :: rest) = c :: rest from by simp [stripFront, hc]]
      refine ⟨hmem, ?_, hdd⟩
      intro x rest' h
      injection h with h1 h2
      subst h1
      rcases hmem c (List.mem_cons_self c rest) with hk | hd
      · exact hk
      · exact absurd hd hc

/-- The shape guarantees of the edge-stripping pass, given the collapse
pass's output properties: only kept characters or hyphens, never "--", and
a kept character right after a leading hyphen. -/
theorem stripEdges_shape (l : List Char)
    (hmem : ∀ c ∈ l, keepC c = true ∨ c = '-')
    (hdd : containsSub l ['-', '-'] = false)
    (hdh : ∀ x rest, l = '-' :: x :: rest → keepC x = true) :
    (∀ c ∈ stripEdges l, keepC c = true ∨ c = '-')
    ∧ (stripEdges l).head? ≠ some '-'
    ∧ (stripEdges l).getLast? ≠ some '-'
    ∧ containsSub (stripEdges l) ['-', '-'] = false := by
  obtain ⟨hmem1, hhead1, hdd1⟩ := stripFront_shape l hmem hdd hdh
  simp only [stripEdges]
  generalize hL : stripFront l = l1 at hmem1 hhead1 hdd1
  by_cases hlast : l1.getLast? = some '-'
  · rw [if_pos (by rw [hlast]; rfl)]
    refine ⟨?_, ?_, ?_, containsSub_dropLast hdd1⟩
    · intro c hc
      exact hmem1 c (List.dropLast_sublist l1 |>.subset hc)
    · rcases head?_dropLast l1 with hh | hh
      · rw [hh]; intro h; cases h
      · rw [hh]
        cases l1 with
        | nil => intro h; cases h
        | cons y ys =>
          have hy := hhead1 y ys rfl
          intro h
          exact keepC_ne_dash hy (Option.some.inj h)
    · intro h
      rw [lastTwoDash hlast h] at hdd1
      cases hdd1
  · rw [if_neg (by simpa using hlast)]
    refine ⟨hmem1, ?_, by simpa using hlast, hdd1⟩
    cases l1 with
    | nil => intro h; cases h
    | cons y ys =>
      have hy := hhead1 y ys rfl
      intro h
      exact keepC_ne_dash hy (Option.some.inj h)

theorem collapseGo_true_all_nonkeep : ∀ l : List Char,
    (∀ c ∈ l, keepC c = false) → collapseGo true l = [] := by
  intro l
  induction l with
  | nil => intro _; rfl
  | cons a as ih =>
    intro h
    rw [collapseGo, if_neg (by simp [h a (List.mem_cons_self a as)]),
      if_pos rfl]
    exact ih (fun c hc => h c (List.mem_cons_of_mem a hc))

theorem collapseGo_false_all_nonkeep : ∀ l : List Char,
    (∀ c ∈ l, keepC c = false) →
    collapseGo false l = [] ∨ collapseGo false l = ['-'] := by
  intro l h
  cases l with
  | nil => exact Or.inl rfl
  | cons a as =>
    refine Or.inr ?_
    rw [collapseGo, if_neg (by simp [h a (List.mem_cons_self a as)]), if_neg (by simp)]
    rw [collapseGo_true_all_nonkeep as (fun c hc => h c (List.mem_cons_of_mem a hc))]

/-- A character that is not ASCII-alphanumeric stays outside the kept class
after lower-casing. -/
theorem nonalnum_keep_lower {c : Char}
    (h : ¬(('A' ≤ c ∧ c ≤ 'Z') ∨ ('a' ≤ c ∧ c ≤ 'z') ∨ ('0' ≤ c ∧ c ≤ '9'))) :
    keepC (asciiLower c) = false := by
  have hAZ : ¬('A' ≤ c ∧ c ≤ 'Z') := fun hh => h (Or.inl hh)
  have haz : ¬('a' ≤ c ∧ c ≤ 'z') := fun hh => h (Or.inr (Or.inl hh))
  have h09 : ¬('0' ≤ c ∧ c ≤ '9') := fun hh => h (Or.inr (Or.inr hh))
  rw [asciiLower, if_neg hAZ]
  show (decide ('a' ≤ c) && decide (c ≤ 'z') || decide ('0' ≤ c) && decide (c ≤ '9')) = false
  simp only [Bool.or_eq_false_iff, Bool.and_eq_false_iff, decide_eq_false_iff_not]
  constructor
  · by_cases h1 : 'a' ≤ c
    · exact Or.inr (fun h2 => haz ⟨h1, h2⟩)
    · exact Or.inl h1
  · by_cases h1 : '0' ≤ c
    · exact Or.inr (fun h2 => h09 ⟨h1, h2⟩)
    · exact Or.inl h1

/-- C10: every identifier produced by `slugify` consists only of lowercase
ASCII letters, digits, and hyphens, with no leading hyphen, no trailing
hyphen, and no two consecutive hyphens; and a name without any ASCII
alphanumeric character slugifies to the empty string.  (This shape is what
makes the id safe as the per-venue raw file name.) -/
theorem slugify_shape (name : String) :
    (∀ c ∈ (slugify name).toList,
        ('a' ≤ c ∧ c ≤ 'z') ∨ ('0' ≤ c ∧ c ≤ '9') ∨ c = '-')
    ∧ (slugify name).toList.head? ≠ some '-'
    ∧ (slugify name).toList.getLast? ≠ some '-'
    ∧ containsSub (slugify name).toList ['-', '-'] = false
    ∧ ((∀ c ∈ name.toList,
          ¬(('A' ≤ c ∧ c ≤ 'Z') ∨ ('a' ≤ c ∧ c ≤ 'z') ∨ ('0' ≤ c ∧ c ≤ '9')))
        → slugify name = "") := by
  have hToList : (slugify name).toList
      = stripEdges (collapseGo false (lowerL name.toList)) := rfl
  obtain ⟨p1, p2, p3, p4⟩ := stripEdges_shape (collapseGo false (lowerL name.toList))
    (fun c hc => mem_collapseGo (lowerL name.toList) false c hc)
    (noDD_collapseGo (lowerL name.toList) false)
    (collapseGo_false_dash_head (lowerL name.toList))
  refine ⟨?_, ?_, ?_, ?_, ?_⟩
  · intro c hc
    rw [hToList] at hc
    rcases p1 c hc with hk | hd
    · simp only [keepC, Bool.or_eq_true_iff, Bool.and_eq_true,
        decide_eq_true_eq] at hk
      rcases hk with h1 | h2
      · exact Or.inl h1
      · exact Or.inr (Or.inl h2)
    · exact Or.inr (Or.inr hd)
  · rw [hToList]; exact p2
  · rw [hToList]; exact p3
  · rw [hToList]; exact p4
  · intro hna
    have hLnk : ∀ c ∈ lowerL name.toList, keepC c = false := by
      intro c hc
      rcases List.mem_map.mp hc with ⟨d, hd, rfl⟩
      exact nonalnum_keep_lower (hna d hd)
    rcases collapseGo_false_all_nonkeep (lowerL name.toList) hLnk with h0 | h1
    · show (⟨stripEdges (collapseGo false (lowerL name.toList))⟩ : String) = ""
      rw [h0]
      decide
    · show (⟨stripEdges (collapseGo false (lowerL name.toList))⟩ : String) = ""
      rw [h1]
      decide

/-- Witness for C10: the all-punctuation name "!!!" slugifies to the empty
string. -/
theorem slugify_shape_witness : slugify "!!!" = "" :=
  (slugify_shape "!!!").2.2.2.2 (by decide)

end HappyHour
